import Mathlib

/-!
Verification of the streampager core (`src/lib.rs`).

The file shallowly embeds the orchestration layer of the pager:

* `files_fit` and `wait_for_screenful` are translated directly from the
  functions of the same names in `src/lib.rs`.
* `runModel` embeds the `run` function's delay-fullscreen dispatch
  (direct flush versus interactive mode).
* `add_output_stream` / `add_error_stream` / `set_progress_stream` /
  `set_delay_fullscreen` embed the registration methods of `Pager`,
  with the `VecMap` of error files represented as an association list.
* The modules `file.rs` and `line.rs` are not part of the provided
  sources, so the line store (`LineStore`), the line height function
  (`lineHeight`) and the full-render operation (`renderLineFull`) are
  modelled from the specification; their doc comments say so explicitly.

Time is modelled by tagging each polled event with the duration the
poll consumed; the wait loop accumulates these durations and compares
against the deadline exactly where the source compares
`load_start.elapsed()` against `load_delay`.  A `none` result of the
wait loop models a panic (the out-of-bounds `loaded[i] = true` write),
as opposed to the `Result` errors of the source, which are not modelled.
-/

/-- Modelled from the spec: `line.rs` is not part of the provided sources.
A decoded line is its sequence of bytes; `lineHeight line w` is the number
of terminal rows needed to display the line wrapped at `w` columns
(spec 4.3: at least 1 even for an empty line, wrapping the line's cells at
the given width; a width of 0 cannot wrap tighter than one column). -/
def lineHeight (line : List Nat) (w : Nat) : Nat :=
  if line.length = 0 then 1 else (line.length - 1) / max 1 w + 1

/-- A registered source as seen by the fit decision: the sequence of decoded
lines currently published by its store (`File` in the source). -/
structure SFile where
  lines : List (List Nat)
deriving DecidableEq, Repr

/-- Total wrapped-row height of a list of lines at width `w`. -/
def heightSum (w : Nat) (ls : List (List Nat)) : Nat :=
  (ls.map (fun l => lineHeight l w)).sum

/-- Total wrapped-row height of all lines of all files at width `w`. -/
def totalHeight (w : Nat) (files : List SFile) : Nat :=
  (files.map (fun f => heightSum w f.lines)).sum

/-- Inner loop of `files_fit` (`for i in 0..lines` in the source): adds the
height of each line to the running total `acc`, returning `none` as soon as
the total exceeds `h` (the source's `return false`). -/
def fitLines (w h : Nat) : List (List Nat) → Nat → Option Nat
  | [], acc => some acc
  | l :: ls, acc =>
    let acc2 := acc + lineHeight l w
    if h < acc2 then none else fitLines w h ls acc2

/-- Outer loop of `files_fit` (`for file in files.iter()`): the source first
returns `false` if the running total plus the file's line count already
exceeds `h`, then sums the per-line heights via the inner loop. -/
def fitFiles (w h : Nat) : List SFile → Nat → Option Nat
  | [], acc => some acc
  | f :: fs, acc =>
    if h < acc + f.lines.length then none
    else
      match fitLines w h f.lines acc with
      | none => none
      | some acc2 => fitFiles w h fs acc2

/-- Embeds `files_fit(files, w, h)` from `src/lib.rs`: true if the given
files fit on a screen of `w` columns and `h` rows. -/
def files_fit (files : List SFile) (w h : Nat) : Bool :=
  (fitFiles w h files 0).isSome

/-- The events consumed by `wait_for_screenful`: `loaded i` is
`Event::Loaded(i)`, `key` is `Event::Input(InputEvent::Key(_))`,
`resized c r` is a resize notification after which the terminal reports
size `c × r`, and `other` covers a poll timeout (`None`) and every event
matched by the source's `_ => {}` arm. -/
inductive PEvent
  | loaded (i : Nat)
  | key
  | resized (c r : Nat)
  | other
deriving DecidableEq, Repr

/-- Embeds the `while load_start.elapsed() < load_delay` loop of
`wait_for_screenful`.  `trace` is the sequence of polled events, each paired
with the duration the poll consumed; `elapsed` is the time already elapsed,
compared against `deadline` at the top of each iteration.  `loaded` is the
vector of per-file loaded flags.  `none` models the panic of the
out-of-bounds write `loaded[i] = true`. -/
def waitLoop (files : List SFile) (deadline : Nat)
    (trace : List (Nat × PEvent)) (elapsed cols rows : Nat)
    (loaded : List Bool) : Option Bool :=
  if elapsed < deadline then
    match trace with
    | [] => some false
    | (dt, ev) :: rest =>
      match ev with
      | PEvent.loaded i =>
        if i < loaded.length then
          let loaded2 := loaded.set i true
          if loaded2.all id then
            some (files_fit files cols rows)
          else if files_fit files cols rows then
            waitLoop files deadline rest (elapsed + dt) cols rows loaded2
          else some false
        else none
      | PEvent.key => some false
      | PEvent.resized c r =>
        if files_fit files c r then
          waitLoop files deadline rest (elapsed + dt) c r loaded
        else some false
      | PEvent.other =>
        if files_fit files cols rows then
          waitLoop files deadline rest (elapsed + dt) cols rows loaded
        else some false
  else some false

/-- Embeds `wait_for_screenful(files, term, events, load_delay)` from
`src/lib.rs`: the terminal initially reports size `cols × rows`, the loaded
flags start as `false` for every file, and no time has elapsed yet. -/
def wait_for_screenful (files : List SFile) (cols rows deadline : Nat)
    (trace : List (Nat × PEvent)) : Option Bool :=
  waitLoop files deadline trace 0 cols rows (files.map (fun _ => false))

/-- Sum of the durations of a trace. -/
def dtSum (trace : List (Nat × PEvent)) : Nat :=
  (trace.map Prod.fst).sum

/-- The loaded flags after applying the `Loaded` events of `evs` to
`loaded`, mirroring the loop's `loaded[i] = true` updates. -/
def markAll (loaded : List Bool) : List PEvent → List Bool
  | [] => loaded
  | PEvent.loaded i :: evs => markAll (loaded.set i true) evs
  | _ :: evs => markAll loaded evs

/-- A terminal change produced during direct flush: `text bytes` models the
paint operations of `Line::render_full` (modelled from the spec, `line.rs`
being absent: render reproduces the line's bytes verbatim), and
`cursorNextLine` models the `Change::CursorPosition` pushed after each
line. -/
inductive Change
  | text (bytes : List Nat)
  | cursorNextLine
deriving DecidableEq, Repr

/-- The change list accumulated for one file in the direct-flush loop of
`run`: for every line index in `0..file.lines()`, the rendered line
followed by a cursor move to the next row. -/
def renderFileChanges (f : SFile) : List Change :=
  f.lines.flatMap (fun l => [Change.text l, Change.cursorNextLine])

/-- The possible outcomes of `run`: a direct flush rendering the given
change list and returning successfully, or entering the interactive
display loop (`display::start`). -/
inductive RunOutcome
  | directFlush (changes : List Change)
  | interactive
deriving DecidableEq, Repr

/-- Embeds the direct-flush block of `run`: the loop over `spec.files`
renders the current file's changes and then executes `return Ok(())`
inside the loop body, so only the first file is ever rendered; with no
files, the loop body never runs and control falls through to
`display::start`. -/
def directFlushFirst : List SFile → RunOutcome
  | [] => RunOutcome.interactive
  | f :: _ => RunOutcome.directFlush (renderFileChanges f)

/-- Embeds `run(spec)` from `src/lib.rs`: when `delay_fullscreen` is set it
waits for a screenful with a hard-coded two-second deadline, on `true`
takes the direct-flush path, otherwise starts the interactive display.
`none` propagates a panic of the wait loop. -/
def runModel (delayFullscreen : Bool) (files : List SFile)
    (cols rows : Nat) (trace : List (Nat × PEvent)) : Option RunOutcome :=
  if delayFullscreen then
    match wait_for_screenful files cols rows 2000 trace with
    | none => none
    | some true => some (directFlushFirst files)
    | some false => some RunOutcome.interactive
  else some RunOutcome.interactive

/-- Following the spec's words, not the source (for comparison with the
direct-flush path): DirectFlush renders every line of every source in
registration order. -/
def specDirectFlushChanges (files : List SFile) : List Change :=
  files.flatMap renderFileChanges

/-- A registered file handle as stored in `Pager::files` and
`Pager::error_files`: `File::new_streamed(index, ..)` records the index the
file was created with; the stream, title and event sender play no role in
the registration claims. -/
structure MFile where
  index : Nat
deriving DecidableEq, Repr

/-- The `Pager` fields touched by the registration methods. The
`VecMap<File>` of error files is an association list from file index to
file handle. -/
structure PagerS where
  files : List MFile
  errorFiles : List (Nat × MFile)
  progressSet : Bool
  delayFullscreen : Bool
deriving DecidableEq, Repr

/-- The pager state after `new_using_system_terminal`: no files, an empty
error-file map, no progress stream, delayed fullscreen. -/
def newPager : PagerS :=
  { files := [], errorFiles := [], progressSet := false,
    delayFullscreen := true }

/-- `VecMap::insert`: replaces the value at an existing key, otherwise adds
the binding. -/
def vmInsert : List (Nat × MFile) → Nat → MFile → List (Nat × MFile)
  | [], k, v => [(k, v)]
  | (k1, v1) :: rest, k, v =>
    if k = k1 then (k, v) :: rest else (k1, v1) :: vmInsert rest k v

/-- Embeds `Pager::add_output_stream`: creates a file with index
`files.len()` and pushes it onto `files`. -/
def add_output_stream (p : PagerS) : PagerS :=
  { p with files := p.files ++ [⟨p.files.length⟩] }

/-- Embeds `Pager::add_error_stream`: creates a file with index
`files.len()`, and if an output file was previously added (`files.last()`),
inserts the new file into the error-file map keyed by that file's index
(the value shares the new file's store via `file.clone()`); then pushes the
new file onto `files`. -/
def add_error_stream (p : PagerS) : PagerS :=
  let f : MFile := ⟨p.files.length⟩
  let ef :=
    match p.files.getLast? with
    | some out => vmInsert p.errorFiles out.index f
    | none => p.errorFiles
  { p with files := p.files ++ [f], errorFiles := ef }

/-- Embeds `Pager::set_progress_stream`: only sets the progress field. -/
def set_progress_stream (p : PagerS) : PagerS :=
  { p with progressSet := true }

/-- Embeds `Pager::set_delay_fullscreen`: only sets the flag. -/
def set_delay_fullscreen (p : PagerS) (b : Bool) : PagerS :=
  { p with delayFullscreen := b }

/-- A registration-phase operation on the pager. -/
inductive POp
  | addOutput
  | addError
  | setProgress
  | setDelay (b : Bool)
deriving DecidableEq, Repr

/-- Apply one registration operation. -/
def applyOp (p : PagerS) : POp → PagerS
  | POp.addOutput => add_output_stream p
  | POp.addError => add_error_stream p
  | POp.setProgress => set_progress_stream p
  | POp.setDelay b => set_delay_fullscreen p b

/-- Apply a sequence of registration operations in order. -/
def applyOps (p : PagerS) (ops : List POp) : PagerS :=
  ops.foldl applyOp p

/-- Modelled from the spec: `file.rs` is not part of the provided sources.
The concurrently readable line store of one source: the sequence of lines
the worker has published so far, in publication order. -/
structure LineStore where
  published : List (List Nat)
deriving DecidableEq, Repr

/-- Modelled from the spec: `lines()` / `line_count()`, the snapshot of the
number of published lines. -/
def lineCount (s : LineStore) : Nat :=
  s.published.length

/-- Modelled from the spec: `with_line(index, f)` invokes `f` on a read-only
view of the line's bytes if `index < line_count()`, else yields nothing. -/
def withLine {α : Type} (s : LineStore) (i : Nat) (f : List Nat → α) :
    Option α :=
  if h : i < s.published.length then some (f (s.published.get ⟨i, h⟩))
  else none

/-- Modelled from the spec: the worker appends one fully decoded line to the
store. -/
def appendLine (s : LineStore) (l : List Nat) : LineStore :=
  ⟨s.published ++ [l]⟩

/-- A sequence of appends by the worker, interleaving points at which
readers may observe the store. -/
def appendAll (s : LineStore) (ls : List (List Nat)) : LineStore :=
  ls.foldl appendLine s

theorem lineHeight_pos (l : List Nat) (w : Nat) : 1 ≤ lineHeight l w := by
  unfold lineHeight
  split
  · exact Nat.le_refl 1
  · exact Nat.le_add_left 1 _

theorem heightSum_cons (w : Nat) (l : List Nat) (ls : List (List Nat)) :
    heightSum w (l :: ls) = lineHeight l w + heightSum w ls := by
  simp [heightSum]

theorem totalHeight_cons (w : Nat) (f : SFile) (fs : List SFile) :
    totalHeight w (f :: fs) = heightSum w f.lines + totalHeight w fs := by
  simp [totalHeight]

theorem totalHeight_append (w : Nat) (a b : List SFile) :
    totalHeight w (a ++ b) = totalHeight w a + totalHeight w b := by
  simp [totalHeight]

theorem length_le_heightSum (w : Nat) (ls : List (List Nat)) :
    ls.length ≤ heightSum w ls := by
  induction ls with
  | nil => simp [heightSum]
  | cons l ls ih =>
    have h1 := lineHeight_pos l w
    rw [heightSum_cons, List.length_cons]
    omega

theorem fitLines_eq (w h : Nat) :
    ∀ (ls : List (List Nat)) (acc : Nat), acc ≤ h →
      fitLines w h ls acc =
        if acc + heightSum w ls ≤ h then some (acc + heightSum w ls)
        else none := by
  intro ls
  induction ls with
  | nil =>
    intro acc hacc
    simp [fitLines, heightSum, hacc]
  | cons l ls ih =>
    intro acc hacc
    simp only [fitLines]
    by_cases hlt : h < acc + lineHeight l w
    · rw [if_pos hlt]
      have hno : ¬ (acc + heightSum w (l :: ls) ≤ h) := by
        rw [heightSum_cons]; omega
      rw [if_neg hno]
    · rw [if_neg hlt]
      push_neg at hlt
      rw [ih (acc + lineHeight l w) hlt, heightSum_cons, ← Nat.add_assoc]

theorem fitFiles_eq (w h : Nat) :
    ∀ (fs : List SFile) (acc : Nat), acc ≤ h →
      fitFiles w h fs acc =
        if acc + totalHeight w fs ≤ h then some (acc + totalHeight w fs)
        else none := by
  intro fs
  induction fs with
  | nil =>
    intro acc hacc
    simp [fitFiles, totalHeight, hacc]
  | cons f fs ih =>
    intro acc hacc
    simp only [fitFiles]
    by_cases hpre : h < acc + f.lines.length
    · rw [if_pos hpre]
      have h1 := length_le_heightSum w f.lines
      have hno : ¬ (acc + totalHeight w (f :: fs) ≤ h) := by
        rw [totalHeight_cons]; omega
      rw [if_neg hno]
    · rw [if_neg hpre]
      push_neg at hpre
      rw [fitLines_eq w h f.lines acc hacc]
      by_cases hfl : acc + heightSum w f.lines ≤ h
      · rw [if_pos hfl]
        show fitFiles w h fs (acc + heightSum w f.lines) = _
        rw [ih (acc + heightSum w f.lines) hfl, totalHeight_cons,
          ← Nat.add_assoc]
      · rw [if_neg hfl]
        have hno : ¬ (acc + totalHeight w (f :: fs) ≤ h) := by
          rw [totalHeight_cons]; omega
        rw [if_neg hno]

theorem files_fit_eq (files : List SFile) (w h : Nat) :
    files_fit files w h = decide (totalHeight w files ≤ h) := by
  unfold files_fit
  rw [fitFiles_eq w h files 0 (Nat.zero_le h)]
  by_cases hle : totalHeight w files ≤ h
  · simp [hle]
  · simp [hle]

theorem waitLoop_unfit (files : List SFile) (deadline : Nat)
    (trace : List (Nat × PEvent)) (elapsed cols rows : Nat)
    (loaded : List Bool)
    (hfit : files_fit files cols rows = false)
    (hvalid : ∀ p ∈ trace, ∀ i, p.2 = PEvent.loaded i → i < files.length)
    (hnores : ∀ p ∈ trace, ∀ c r, p.2 ≠ PEvent.resized c r)
    (hlen : loaded.length = files.length) :
    waitLoop files deadline trace elapsed cols rows loaded = some false := by
  rw [waitLoop.eq_def]
  by_cases hel : elapsed < deadline
  · rw [if_pos hel]
    cases trace with
    | nil => rfl
    | cons p rest =>
      obtain ⟨dt, ev⟩ := p
      cases ev with
      | loaded i =>
        have hi : i < loaded.length := by
          rw [hlen]
          exact hvalid _ (List.mem_cons_self _ _) i rfl
        simp [hi, hfit]
      | key => rfl
      | resized c r =>
        exact absurd rfl (hnores _ (List.mem_cons_self _ _) c r)
      | other => simp [hfit]
  · rw [if_neg hel]

theorem waitLoop_isSome (files : List SFile) (deadline : Nat) :
    ∀ (trace : List (Nat × PEvent)) (elapsed cols rows : Nat)
      (loaded : List Bool),
      loaded.length = files.length →
      (∀ p ∈ trace, ∀ i, p.2 = PEvent.loaded i → i < files.length) →
      (waitLoop files deadline trace elapsed cols rows loaded).isSome
        = true := by
  intro trace
  induction trace with
  | nil =>
    intro elapsed cols rows loaded hlen hvalid
    rw [waitLoop.eq_def]
    split <;> rfl
  | cons p rest ih =>
    intro elapsed cols rows loaded hlen hvalid
    obtain ⟨dt, ev⟩ := p
    rw [waitLoop.eq_def]
    by_cases hel : elapsed < deadline
    · rw [if_pos hel]
      have hrest : ∀ p ∈ rest, ∀ i, p.2 = PEvent.loaded i →
          i < files.length :=
        fun p hp => hvalid p (List.mem_cons_of_mem _ hp)
      cases ev with
      | loaded i =>
        have hi : i < loaded.length := by
          rw [hlen]
          exact hvalid _ (List.mem_cons_self _ _) i rfl
        have hlen2 : (loaded.set i true).length = files.length := by
          rw [List.length_set]
          exact hlen
        by_cases hall : ((loaded.set i true).all id)
        · simp [hi, hall]
        · by_cases hfit : files_fit files cols rows
          · simpa [hi, hall, hfit] using
              ih (elapsed + dt) cols rows (loaded.set i true) hlen2 hrest
          · simp [hi, hall, hfit]
      | key => rfl
      | resized c r =>
        by_cases hfit : files_fit files c r
        · simpa [hfit] using ih (elapsed + dt) c r loaded hlen hrest
        · simp [hfit]
      | other =>
        by_cases hfit : files_fit files cols rows
        · simpa [hfit] using ih (elapsed + dt) cols rows loaded hlen hrest
        · simp [hfit]
    · rw [if_neg hel]
      rfl

theorem markAll_nil (loaded : List Bool) : markAll loaded [] = loaded := rfl

theorem markAll_loaded (loaded : List Bool) (i : Nat) (evs : List PEvent) :
    markAll loaded (PEvent.loaded i :: evs)
      = markAll (loaded.set i true) evs := rfl

theorem markAll_key (loaded : List Bool) (evs : List PEvent) :
    markAll loaded (PEvent.key :: evs) = markAll loaded evs := rfl

theorem markAll_resized (loaded : List Bool) (c r : Nat)
    (evs : List PEvent) :
    markAll loaded (PEvent.resized c r :: evs) = markAll loaded evs := rfl

theorem markAll_other (loaded : List Bool) (evs : List PEvent) :
    markAll loaded (PEvent.other :: evs) = markAll loaded evs := rfl

theorem dtSum_cons (dt : Nat) (ev : PEvent) (trace : List (Nat × PEvent)) :
    dtSum ((dt, ev) :: trace) = dt + dtSum trace := by
  simp [dtSum]

theorem waitLoop_key_abort (files : List SFile) (deadline dt0 : Nat)
    (post : List (Nat × PEvent)) :
    ∀ (pre : List (Nat × PEvent)) (elapsed cols rows : Nat)
      (loaded : List Bool),
      loaded.length = files.length →
      (∀ p ∈ pre, ∀ i, p.2 = PEvent.loaded i → i < files.length) →
      (∀ n, n < pre.length →
        (markAll loaded ((List.take (n + 1) pre).map Prod.snd)).all id
          = false) →
      waitLoop files deadline (pre ++ (dt0, PEvent.key) :: post)
        elapsed cols rows loaded = some false := by
  intro pre
  induction pre with
  | nil =>
    intro elapsed cols rows loaded hlen hvalid hnc
    rw [waitLoop.eq_def]
    by_cases hel : elapsed < deadline
    · rw [if_pos hel]
      rfl
    · rw [if_neg hel]
  | cons p rest ih =>
    intro elapsed cols rows loaded hlen hvalid hnc
    obtain ⟨dt, ev⟩ := p
    rw [waitLoop.eq_def]
    by_cases hel : elapsed < deadline
    · rw [if_pos hel]
      have hrest : ∀ p ∈ rest, ∀ i, p.2 = PEvent.loaded i →
          i < files.length :=
        fun p hp => hvalid p (List.mem_cons_of_mem _ hp)
      cases ev with
      | loaded i =>
        have hi : i < loaded.length := by
          rw [hlen]
          exact hvalid _ (List.mem_cons_self _ _) i rfl
        have hlen2 : (loaded.set i true).length = files.length := by
          rw [List.length_set]
          exact hlen
        have hall : ((loaded.set i true).all id) = false := by
          have h0 := hnc 0 (by simp)
          simpa [markAll_loaded, markAll_nil] using h0
        have hnc2 : ∀ n, n < rest.length →
            (markAll (loaded.set i true)
              ((List.take (n + 1) rest).map Prod.snd)).all id = false := by
          intro n hn
          have h1 := hnc (n + 1) (by simpa using Nat.succ_lt_succ hn)
          simpa [List.take_succ_cons, markAll_loaded] using h1
        by_cases hfit : files_fit files cols rows
        · simpa [hi, hall, hfit] using
            ih (elapsed + dt) cols rows (loaded.set i true) hlen2 hrest
              hnc2
        · simp [hi, hall, hfit]
      | key => rfl
      | resized c r =>
        have hnc2 : ∀ n, n < rest.length →
            (markAll loaded
              ((List.take (n + 1) rest).map Prod.snd)).all id = false := by
          intro n hn
          have h1 := hnc (n + 1) (by simpa using Nat.succ_lt_succ hn)
          simpa [List.take_succ_cons, markAll_resized] using h1
        by_cases hfit : files_fit files c r
        · simpa [hfit] using
            ih (elapsed + dt) c r loaded hlen hrest hnc2
        · simp [hfit]
      | other =>
        have hnc2 : ∀ n, n < rest.length →
            (markAll loaded
              ((List.take (n + 1) rest).map Prod.snd)).all id = false := by
          intro n hn
          have h1 := hnc (n + 1) (by simpa using Nat.succ_lt_succ hn)
          simpa [List.take_succ_cons, markAll_other] using h1
        by_cases hfit : files_fit files cols rows
        · simpa [hfit] using
            ih (elapsed + dt) cols rows loaded hlen hrest hnc2
        · simp [hfit]
    · rw [if_neg hel]

theorem waitLoop_no_complete (files : List SFile) (deadline : Nat) :
    ∀ (trace : List (Nat × PEvent)) (elapsed cols rows : Nat)
      (loaded : List Bool),
      loaded.length = files.length →
      (∀ p ∈ trace, ∀ i, p.2 = PEvent.loaded i → i < files.length) →
      (∀ n, n < trace.length →
        elapsed + dtSum (List.take n trace) < deadline →
        (markAll loaded ((List.take (n + 1) trace).map Prod.snd)).all id
          = false) →
      waitLoop files deadline trace elapsed cols rows loaded
        = some false := by
  intro trace
  induction trace with
  | nil =>
    intro elapsed cols rows loaded hlen hvalid hnc
    rw [waitLoop.eq_def]
    by_cases hel : elapsed < deadline
    · rw [if_pos hel]
    · rw [if_neg hel]
  | cons p rest ih =>
    intro elapsed cols rows loaded hlen hvalid hnc
    obtain ⟨dt, ev⟩ := p
    rw [waitLoop.eq_def]
    by_cases hel : elapsed < deadline
    · rw [if_pos hel]
      have hrest : ∀ p ∈ rest, ∀ i, p.2 = PEvent.loaded i →
          i < files.length :=
        fun p hp => hvalid p (List.mem_cons_of_mem _ hp)
      cases ev with
      | loaded i =>
        have hi : i < loaded.length := by
          rw [hlen]
          exact hvalid _ (List.mem_cons_self _ _) i rfl
        have hlen2 : (loaded.set i true).length = files.length := by
          rw [List.length_set]
          exact hlen
        have hall : ((loaded.set i true).all id) = false := by
          have h0 := hnc 0 (by simp) (by simpa [dtSum] using hel)
          simpa [markAll_loaded, markAll_nil] using h0
        have hnc2 : ∀ n, n < rest.length →
            (elapsed + dt) + dtSum (List.take n rest) < deadline →
            (markAll (loaded.set i true)
              ((List.take (n + 1) rest).map Prod.snd)).all id = false := by
          intro n hn htime
          have h1 := hnc (n + 1) (by simpa using Nat.succ_lt_succ hn)
            (by rw [List.take_succ_cons, dtSum_cons]; omega)
          simpa [List.take_succ_cons, markAll_loaded] using h1
        by_cases hfit : files_fit files cols rows
        · simpa [hi, hall, hfit] using
            ih (elapsed + dt) cols rows (loaded.set i true) hlen2 hrest
              hnc2
        · simp [hi, hall, hfit]
      | key => rfl
      | resized c r =>
        have hnc2 : ∀ n, n < rest.length →
            (elapsed + dt) + dtSum (List.take n rest) < deadline →
            (markAll loaded
              ((List.take (n + 1) rest).map Prod.snd)).all id = false := by
          intro n hn htime
          have h1 := hnc (n + 1) (by simpa using Nat.succ_lt_succ hn)
            (by rw [List.take_succ_cons, dtSum_cons]; omega)
          simpa [List.take_succ_cons, markAll_resized] using h1
        by_cases hfit : files_fit files c r
        · simpa [hfit] using ih (elapsed + dt) c r loaded hlen hrest hnc2
        · simp [hfit]
      | other =>
        have hnc2 : ∀ n, n < rest.length →
            (elapsed + dt) + dtSum (List.take n rest) < deadline →
            (markAll loaded
              ((List.take (n + 1) rest).map Prod.snd)).all id = false := by
          intro n hn htime
          have h1 := hnc (n + 1) (by simpa using Nat.succ_lt_succ hn)
            (by rw [List.take_succ_cons, dtSum_cons]; omega)
          simpa [List.take_succ_cons, markAll_other] using h1
        by_cases hfit : files_fit files cols rows
        · simpa [hfit] using
            ih (elapsed + dt) cols rows loaded hlen hrest hnc2
        · simp [hfit]
    · rw [if_neg hel]

theorem waitLoop_completes (files : List SFile) (deadline cols rows : Nat)
    (hfit : files_fit files cols rows = true) :
    ∀ (trace : List (Nat × PEvent)) (n elapsed : Nat)
      (loaded : List Bool),
      loaded.length = files.length →
      loaded.all id = false →
      (∀ p ∈ trace,
        (∃ i, p.2 = PEvent.loaded i ∧ i < files.length) ∨
          p.2 = PEvent.other) →
      n < trace.length →
      elapsed + dtSum (List.take n trace) < deadline →
      (markAll loaded ((List.take (n + 1) trace).map Prod.snd)).all id
        = true →
      waitLoop files deadline trace elapsed cols rows loaded
        = some true := by
  intro trace
  induction trace with
  | nil =>
    intro n elapsed loaded _ _ _ hn _ _
    exact absurd hn (by simp)
  | cons p rest ih =>
    intro n elapsed loaded hlen hnall hkinds hn htime hcover
    obtain ⟨dt, ev⟩ := p
    have hel : elapsed < deadline := by
      have h1 : elapsed ≤ elapsed + dtSum (List.take n ((dt, ev) :: rest)) :=
        Nat.le_add_right _ _
      omega
    rw [waitLoop.eq_def, if_pos hel]
    have hkinds2 : ∀ p ∈ rest,
        (∃ i, p.2 = PEvent.loaded i ∧ i < files.length) ∨
          p.2 = PEvent.other :=
      fun p hp => hkinds p (List.mem_cons_of_mem _ hp)
    cases ev with
    | loaded i =>
      have hilt : i < files.length := by
        rcases hkinds _ (List.mem_cons_self _ _) with ⟨j, hev, hjlt⟩ | hev
        · simp at hev
          rw [hev]
          exact hjlt
        · simp at hev
      have hi : i < loaded.length := by
        rw [hlen]
        exact hilt
      by_cases hall : ((loaded.set i true).all id)
      · simp [hi, hall, hfit]
      · cases n with
        | zero =>
          exfalso
          rw [List.take_succ_cons, List.take_zero] at hcover
          simp only [List.map_cons, List.map_nil, markAll_loaded,
            markAll_nil] at hcover
          exact hall hcover
        | succ m =>
          have hall2 : ((loaded.set i true).all id) = false := by
            rwa [Bool.not_eq_true] at hall
          have hlen2 : (loaded.set i true).length = files.length := by
            rw [List.length_set]
            exact hlen
          have hm : m < rest.length := by
            simpa using Nat.lt_of_succ_lt_succ hn
          have htime2 : (elapsed + dt) + dtSum (List.take m rest)
              < deadline := by
            rw [List.take_succ_cons, dtSum_cons] at htime
            omega
          have hcover2 : (markAll (loaded.set i true)
              ((List.take (m + 1) rest).map Prod.snd)).all id = true := by
            rw [List.take_succ_cons] at hcover
            simpa [markAll_loaded] using hcover
          simpa [hi, hall, hfit] using
            ih m (elapsed + dt) (loaded.set i true) hlen2 hall2 hkinds2
              hm htime2 hcover2
    | key =>
      exfalso
      rcases hkinds _ (List.mem_cons_self _ _) with ⟨j, hev, _⟩ | hev <;>
        simp at hev
    | resized c r =>
      exfalso
      rcases hkinds _ (List.mem_cons_self _ _) with ⟨j, hev, _⟩ | hev <;>
        simp at hev
    | other =>
      cases n with
      | zero =>
        exfalso
        rw [List.take_succ_cons, List.take_zero] at hcover
        simp only [List.map_cons, List.map_nil, markAll_other,
          markAll_nil] at hcover
        rw [hnall] at hcover
        exact Bool.false_ne_true hcover
      | succ m =>
        have hm : m < rest.length := by
          simpa using Nat.lt_of_succ_lt_succ hn
        have htime2 : (elapsed + dt) + dtSum (List.take m rest)
            < deadline := by
          rw [List.take_succ_cons, dtSum_cons] at htime
          omega
        have hcover2 : (markAll loaded
            ((List.take (m + 1) rest).map Prod.snd)).all id = true := by
          rw [List.take_succ_cons] at hcover
          simpa [markAll_other] using hcover
        simpa [hfit] using
          ih m (elapsed + dt) loaded hlen hnall hkinds2 hm htime2 hcover2

theorem vmInsert_not_mem (k : Nat) (v : MFile) :
    ∀ m : List (Nat × MFile), k ∉ m.map Prod.fst →
      vmInsert m k v = m ++ [(k, v)] := by
  intro m
  induction m with
  | nil => intro _; rfl
  | cons kv rest ih =>
    intro hk
    obtain ⟨k1, v1⟩ := kv
    have hne : k ≠ k1 := by
      intro h
      exact hk (by simp [h])
    simp only [vmInsert, if_neg hne, List.cons_append]
    rw [ih (fun h => hk (by simp [h]))]

/-- Invariant of the registration phase: the files hold their registration
indices in order, every error-file key is the index of a file that was not
the last one registered, and the keys are pairwise distinct. -/
def pagerInv (p : PagerS) : Prop :=
  p.files.map MFile.index = List.range p.files.length ∧
  (∀ kv ∈ p.errorFiles, kv.1 + 1 < p.files.length) ∧
  (p.errorFiles.map Prod.fst).Nodup

theorem pagerInv_newPager : pagerInv newPager := by
  refine ⟨rfl, ?_, List.nodup_nil⟩
  intro kv hkv
  exact absurd hkv (List.not_mem_nil kv)

theorem pagerInv_applyOp (p : PagerS) (op : POp) (h : pagerInv p) :
    pagerInv (applyOp p op) := by
  obtain ⟨hidx, hbound, hnodup⟩ := h
  cases op with
  | addOutput =>
    simp only [applyOp]
    refine ⟨?_, ?_, hnodup⟩
    · show (p.files ++ [MFile.mk p.files.length]).map MFile.index
        = List.range (p.files ++ [MFile.mk p.files.length]).length
      rw [List.map_append, hidx]
      simp [List.range_succ]
    · intro kv hkv
      have h1 := hbound kv hkv
      show kv.1 + 1 < (p.files ++ [MFile.mk p.files.length]).length
      rw [List.length_append]
      omega
  | addError =>
    simp only [applyOp]
    rcases List.eq_nil_or_concat p.files with hf | ⟨l2, a, hf⟩
    · refine ⟨?_, ?_, ?_⟩
      · show ((add_error_stream p).files).map MFile.index
          = List.range ((add_error_stream p).files).length
        simp [add_error_stream, hf, List.range_succ]
      · intro kv hkv
        simp only [add_error_stream, hf] at hkv
        have h1 := hbound kv (by simpa [hf] using hkv)
        rw [hf] at h1
        simp at h1
      · simp only [add_error_stream, hf]
        simpa [hf] using hnodup
    · rw [List.concat_eq_append] at hf
      have hlen : p.files.length = l2.length + 1 := by rw [hf]; simp
      have ha : a.index = l2.length := by
        rw [hf] at hidx
        rw [List.map_append, List.length_append] at hidx
        simp only [List.map_cons, List.map_nil, List.length_cons,
          List.length_nil] at hidx
        rw [List.range_succ] at hidx
        have hle : (l2.map MFile.index).length
            = (List.range l2.length).length := by
          simp
        have h2 := List.append_inj_right hidx (by simp)
        simpa using h2
      have hlast : p.files.getLast? = some a := by
        rw [hf]
        exact List.getLast?_concat l2
      have hknotin : a.index ∉ p.errorFiles.map Prod.fst := by
        intro hmem
        rcases List.mem_map.mp hmem with ⟨kv, hkv, hkeq⟩
        have h1 := hbound kv hkv
        rw [hkeq, ha] at h1
        omega
      have hef : (add_error_stream p).errorFiles
          = p.errorFiles ++ [(a.index, MFile.mk p.files.length)] := by
        simp only [add_error_stream, hlast]
        exact vmInsert_not_mem a.index (MFile.mk p.files.length)
          p.errorFiles hknotin
      have hfiles : (add_error_stream p).files
          = p.files ++ [MFile.mk p.files.length] := rfl
      refine ⟨?_, ?_, ?_⟩
      · show ((add_error_stream p).files).map MFile.index
          = List.range ((add_error_stream p).files).length
        rw [hfiles, List.map_append, hidx]
        simp [List.range_succ]
      · intro kv hkv
        rw [hef] at hkv
        show kv.1 + 1 < ((add_error_stream p).files).length
        rw [hfiles, List.length_append]
        rcases List.mem_append.mp hkv with h1 | h1
        · have := hbound kv h1
          omega
        · rw [List.mem_singleton] at h1
          subst h1
          show a.index + 1 < p.files.length + 1
          omega
      · show (((add_error_stream p).errorFiles).map Prod.fst).Nodup
        rw [hef, List.map_append]
        simp only [List.map_cons, List.map_nil]
        rw [List.nodup_append]
        refine ⟨hnodup, List.nodup_singleton _, ?_⟩
        intro x hx hx2
        simp at hx2
        rw [hx2] at hx
        exact hknotin hx
  | setProgress => exact ⟨hidx, hbound, hnodup⟩
  | setDelay b => exact ⟨hidx, hbound, hnodup⟩

theorem pagerInv_applyOps (ops : List POp) :
    ∀ p, pagerInv p → pagerInv (applyOps p ops) := by
  induction ops with
  | nil => intro p h; exact h
  | cons op ops ih =>
    intro p h
    exact ih (applyOp p op) (pagerInv_applyOp p op h)

theorem appendAll_eq (ls : List (List Nat)) :
    ∀ s : LineStore, appendAll s ls = ⟨s.published ++ ls⟩ := by
  induction ls with
  | nil =>
    intro s
    show s = ⟨s.published ++ []⟩
    cases s
    simp
  | cons l ls ih =>
    intro s
    show appendAll (appendLine s l) ls = _
    rw [ih (appendLine s l)]
    simp [appendLine]

theorem withLine_append {α : Type} (pub ext : List (List Nat)) (i : Nat)
    (f : List Nat → α) (h : i < pub.length) :
    withLine ⟨pub ++ ext⟩ i f = withLine ⟨pub⟩ i f := by
  unfold withLine
  have h2 : i < (pub ++ ext).length := by
    rw [List.length_append]
    omega
  rw [dif_pos h2, dif_pos h]
  have hg : (pub ++ ext).get ⟨i, h2⟩ = pub.get ⟨i, h⟩ := by
    simp only [List.get_eq_getElem]
    exact List.getElem_append_left h
  rw [hg]

/-- C1: contrary to the claim, the direct-flush path of `run` renders only
the first registered source: the `return Ok(())` sits inside the loop over
`spec.files`, so with two fitting sources the outcome contains only the
first source's changes and differs from the spec's render-everything
contract. -/
theorem c1_direct_flush_renders_only_first_source :
    runModel true [SFile.mk [[104]], SFile.mk [[105]]] 80 24
        [(1, PEvent.loaded 0), (1, PEvent.loaded 1)]
      = some (RunOutcome.directFlush
          (renderFileChanges (SFile.mk [[104]]))) ∧
    renderFileChanges (SFile.mk [[104]])
      ≠ specDirectFlushChanges [SFile.mk [[104]], SFile.mk [[105]]] := by
  decide

/-- C2 counterexample: with no registered sources (all Loaded events
delivered vacuously, total height 0 ≤ 24) the wait still reports "does not
fit"; likewise a key press before the single source's Loaded event makes it
report "does not fit" although the Loaded event is delivered before the
deadline and the content fits. -/
theorem c2_counterexample :
    wait_for_screenful [] 80 24 2000 [] = some false ∧
    totalHeight 80 ([] : List SFile) = 0 ∧
    wait_for_screenful [SFile.mk [[97]]] 80 24 2000
      [(0, PEvent.key), (1, PEvent.loaded 0)] = some false ∧
    totalHeight 80 [SFile.mk [[97]]] ≤ 24 := by
  decide

/-- C2 (amended): for every non-empty list of sources and fixed terminal
size, if the polled events are Loaded events (with valid indices) and
timeouts only, some polled event completes the loaded flags with all poll
durations before it summing to less than the deadline, and the total
wrapped height at width `cols` is at most `rows`, then `wait_for_screenful`
returns `true`. -/
theorem c2_fit_before_deadline_reports_fits (files : List SFile)
    (cols rows deadline n : Nat) (trace : List (Nat × PEvent))
    (hne : files ≠ [])
    (hkinds : ∀ p ∈ trace,
      (∃ i, p.2 = PEvent.loaded i ∧ i < files.length) ∨
        p.2 = PEvent.other)
    (hn : n < trace.length)
    (htime : dtSum (List.take n trace) < deadline)
    (hcover : (markAll (files.map (fun _ => false))
      ((List.take (n + 1) trace).map Prod.snd)).all id = true)
    (hfit : totalHeight cols files ≤ rows) :
    wait_for_screenful files cols rows deadline trace = some true := by
  have hlen : (files.map (fun _ => false)).length = files.length := by
    simp
  have hnall : ((files.map (fun _ => false)).all id) = false := by
    cases files with
    | nil => exact absurd rfl hne
    | cons f fs => simp
  have hfitb : files_fit files cols rows = true := by
    rw [files_fit_eq]
    exact decide_eq_true hfit
  unfold wait_for_screenful
  exact waitLoop_completes files deadline cols rows hfitb trace n 0
    (files.map (fun _ => false)) hlen hnall hkinds hn
    (by simpa using htime) hcover

/-- C2 witness: one source with one short line whose Loaded event arrives
after 10 ms reports "fits". -/
theorem c2_witness :
    wait_for_screenful [SFile.mk [[97]]] 80 24 2000
      [(10, PEvent.loaded 0)] = some true :=
  c2_fit_before_deadline_reports_fits [SFile.mk [[97]]] 80 24 2000 0
    [(10, PEvent.loaded 0)]
    (by decide)
    (by
      intro p hp
      rw [List.mem_singleton] at hp
      subst hp
      exact Or.inl ⟨0, rfl, by decide⟩)
    (by decide)
    (by decide)
    (by decide)
    (by decide)

/-- Modelled after C3: heightSum distributes over line-list append. -/
theorem heightSum_append (w : Nat) (a b : List (List Nat)) :
    heightSum w (a ++ b) = heightSum w a + heightSum w b := by
  simp [heightSum]

/-- C3: if the heights of a proper prefix of the published lines (the files
`fs1` followed by the lines `ls1` of the next file) already sum to more
than the row count `h`, then `files_fit` reports "does not fit" no matter
what the remaining lines `ls2` and remaining files `rest` contain (they are
never inspected), and the waiting loop returns "does not fit" for every
trace and every deadline, even with Loaded events still pending. -/
theorem c3_overflow_short_circuits (w h deadline : Nat)
    (fs1 rest : List SFile) (ls1 ls2 : List (List Nat))
    (trace : List (Nat × PEvent))
    (hover : h < totalHeight w fs1 + heightSum w ls1)
    (hvalid : ∀ p ∈ trace, ∀ i, p.2 = PEvent.loaded i →
      i < (fs1 ++ SFile.mk (ls1 ++ ls2) :: rest).length)
    (hnores : ∀ p ∈ trace, ∀ c r, p.2 ≠ PEvent.resized c r) :
    files_fit (fs1 ++ SFile.mk (ls1 ++ ls2) :: rest) w h = false ∧
    wait_for_screenful (fs1 ++ SFile.mk (ls1 ++ ls2) :: rest) w h
      deadline trace = some false := by
  have htot : totalHeight w (fs1 ++ SFile.mk (ls1 ++ ls2) :: rest)
      = totalHeight w fs1 + (heightSum w ls1 + heightSum w ls2)
        + totalHeight w rest := by
    rw [totalHeight_append, totalHeight_cons]
    show _ + (heightSum w (ls1 ++ ls2) + _) = _
    rw [heightSum_append]
    omega
  have hf : files_fit (fs1 ++ SFile.mk (ls1 ++ ls2) :: rest) w h
      = false := by
    rw [files_fit_eq, htot]
    apply decide_eq_false
    omega
  refine ⟨hf, ?_⟩
  unfold wait_for_screenful
  exact waitLoop_unfit _ deadline trace 0 w h _ hf hvalid hnores (by simp)

/-- C3 witness: 30 one-row lines already published overflow a 24-row
screen regardless of the remaining content, and the wait aborts. -/
theorem c3_witness :
    files_fit ([] ++ SFile.mk (List.replicate 30 [97] ++ [[98]])
      :: [SFile.mk [[99]]]) 80 24 = false ∧
    wait_for_screenful ([] ++ SFile.mk (List.replicate 30 [97] ++ [[98]])
      :: [SFile.mk [[99]]]) 80 24 2000 [] = some false :=
  c3_overflow_short_circuits 80 24 2000 [] [SFile.mk [[99]]]
    (List.replicate 30 [97]) [[98]] []
    (by decide)
    (by intro p hp; exact absurd hp (List.not_mem_nil p))
    (by intro p hp; exact absurd hp (List.not_mem_nil p))

/-- C4: if a key press is polled before any event completes the loaded
flags, `wait_for_screenful` returns "does not fit", whatever events follow
the key press and whatever the content is. -/
theorem c4_keypress_aborts (files : List SFile)
    (cols rows deadline dt0 : Nat) (pre post : List (Nat × PEvent))
    (hvalid : ∀ p ∈ pre, ∀ i, p.2 = PEvent.loaded i → i < files.length)
    (hnc : ∀ n, n < pre.length →
      (markAll (files.map (fun _ => false))
        ((List.take (n + 1) pre).map Prod.snd)).all id = false) :
    wait_for_screenful files cols rows deadline
      (pre ++ (dt0, PEvent.key) :: post) = some false := by
  unfold wait_for_screenful
  exact waitLoop_key_abort files deadline dt0 post pre 0 cols rows
    (files.map (fun _ => false)) (by simp) hvalid hnc

/-- C4 witness: the key press arrives first, then the (fitting) source
loads; the wait still reports "does not fit". -/
theorem c4_witness :
    wait_for_screenful [SFile.mk [[120]]] 80 24 2000
      ([] ++ (3, PEvent.key) :: [(5, PEvent.loaded 0)]) = some false :=
  c4_keypress_aborts [SFile.mk [[120]]] 80 24 2000 3 []
    [(5, PEvent.loaded 0)]
    (by intro p hp; exact absurd hp (List.not_mem_nil p))
    (by intro n hn; exact absurd hn (by simp))

/-- C5: with the two-second deadline of `run`, if no trace position
reachable before the deadline completes the loaded flags, the wait reports
"does not fit" and `run` hands the session to the interactive display
loop. -/
theorem c5_deadline_elapses_to_interactive (files : List SFile)
    (cols rows : Nat) (trace : List (Nat × PEvent))
    (hvalid : ∀ p ∈ trace, ∀ i, p.2 = PEvent.loaded i →
      i < files.length)
    (hnc : ∀ n, n < trace.length → dtSum (List.take n trace) < 2000 →
      (markAll (files.map (fun _ => false))
        ((List.take (n + 1) trace).map Prod.snd)).all id = false) :
    wait_for_screenful files cols rows 2000 trace = some false ∧
    runModel true files cols rows trace
      = some RunOutcome.interactive := by
  have hw : wait_for_screenful files cols rows 2000 trace
      = some false := by
    unfold wait_for_screenful
    apply waitLoop_no_complete files 2000 trace 0 cols rows
      (files.map (fun _ => false)) (by simp) hvalid
    intro n hn htime
    exact hnc n hn (by simpa using htime)
  refine ⟨hw, ?_⟩
  rw [runModel, if_pos rfl, hw]

/-- C5 witness: a source that never announces Loaded (only poll timeouts
arrive) leaves the wait reporting "does not fit" and the run entering
interactive mode. -/
theorem c5_witness :
    wait_for_screenful [SFile.mk [[121]]] 80 24 2000
      [(100, PEvent.other)] = some false ∧
    runModel true [SFile.mk [[121]]] 80 24 [(100, PEvent.other)]
      = some RunOutcome.interactive :=
  c5_deadline_elapses_to_interactive [SFile.mk [[121]]] 80 24
    [(100, PEvent.other)]
    (by
      intro p hp i hev
      rw [List.mem_singleton] at hp
      subst hp
      simp at hev)
    (by
      intro n hn htime
      have h0 : n = 0 := by
        simp at hn
        omega
      subst h0
      decide)

/-- C6: after one output stream and one error stream the error-file map is
exactly one entry keyed by the output stream's index 0, holding the error
stream's file (index 1); for every registration sequence the map's keys
are pairwise distinct (at most one error source per primary index); and
the non-registration operations, as well as `add_output_stream`, never
write the map. -/
theorem c6_error_file_map :
    (applyOps newPager [POp.addOutput, POp.addError]).errorFiles
      = [(0, MFile.mk 1)] ∧
    (∀ ops : List POp,
      ((applyOps newPager ops).errorFiles.map Prod.fst).Nodup) ∧
    (∀ (p : PagerS) (b : Bool),
      (set_progress_stream p).errorFiles = p.errorFiles ∧
      (set_delay_fullscreen p b).errorFiles = p.errorFiles ∧
      (add_output_stream p).errorFiles = p.errorFiles) := by
  refine ⟨by decide, ?_, ?_⟩
  · intro ops
    exact (pagerInv_applyOps ops newPager pagerInv_newPager).2.2
  · intro p b
    exact ⟨rfl, rfl, rfl⟩

/-- C7: the line store only grows under any sequence of appends: the
line count is non-decreasing, equals exactly the number of published
lines, and an index valid before the appends still yields the same
line afterwards. -/
theorem c7_line_store_only_grows (s : LineStore) (ls : List (List Nat))
    (i : Nat) {α : Type} (f : List Nat → α) (h : i < lineCount s) :
    lineCount s ≤ lineCount (appendAll s ls) ∧
    lineCount (appendAll s ls) = lineCount s + ls.length ∧
    withLine (appendAll s ls) i f = withLine s i f := by
  have heq := appendAll_eq ls s
  have hcount : lineCount (appendAll s ls) = lineCount s + ls.length := by
    rw [heq]
    show (s.published ++ ls).length = _
    rw [List.length_append]
    rfl
  refine ⟨by omega, hcount, ?_⟩
  rw [heq]
  have hs : withLine s i f = withLine ⟨s.published⟩ i f := by
    cases s
    rfl
  rw [hs]
  exact withLine_append s.published ls i f h

/-- C7 witness: appending two lines to a one-line store. -/
theorem c7_witness :
    lineCount (LineStore.mk [[97]])
        ≤ lineCount (appendAll (LineStore.mk [[97]]) [[98], [99]]) ∧
    lineCount (appendAll (LineStore.mk [[97]]) [[98], [99]])
        = lineCount (LineStore.mk [[97]]) + [[98], [99]].length ∧
    withLine (appendAll (LineStore.mk [[97]]) [[98], [99]]) 0 List.length
        = withLine (LineStore.mk [[97]]) 0 List.length :=
  c7_line_store_only_grows (LineStore.mk [[97]]) [[98], [99]] 0
    List.length (by decide)

/-- C8: `with_line i f` yields nothing when `i` is at least the line count
at call time, yields `f` of the stored line's bytes when `i` is below it,
and for a valid index the result is unaffected by any appends performed
after the snapshot. -/
theorem c8_with_line_contract (s : LineStore) (ls : List (List Nat))
    (i : Nat) {α : Type} (f : List Nat → α) :
    (lineCount s ≤ i → withLine s i f = none) ∧
    (∀ h : i < lineCount s,
      withLine s i f = some (f (s.published.get ⟨i, h⟩))) ∧
    (i < lineCount s → withLine (appendAll s ls) i f = withLine s i f) := by
  refine ⟨?_, ?_, ?_⟩
  · intro hge
    unfold withLine
    rw [dif_neg]
    show ¬ i < s.published.length
    have hc : lineCount s = s.published.length := rfl
    omega
  · intro h
    unfold withLine
    rw [dif_pos (show i < s.published.length from h)]
  · intro h
    rw [appendAll_eq]
    have hs : withLine s i f = withLine ⟨s.published⟩ i f := by
      cases s
      rfl
    rw [hs]
    exact withLine_append s.published ls i f h

/-- C8 witness: an out-of-range index yields nothing, an in-range index
yields the function's value on the line. -/
theorem c8_witness :
    withLine (LineStore.mk [[97, 98]]) 3 List.length = none ∧
    withLine (LineStore.mk [[97, 98]]) 0 List.length = some 2 := by
  constructor
  · exact (c8_with_line_contract (LineStore.mk [[97, 98]]) [] 3
      List.length).1 (by decide)
  · have h2 := (c8_with_line_contract (LineStore.mk [[97, 98]]) [] 0
      List.length).2.1 (by decide)
    simpa using h2

/-- C9: the wrapped height of any line at any width is at least one row,
and widening the terminal never increases the height. -/
theorem c9_height_pos_antitone (line : List Nat) (w1 w2 : Nat)
    (h : w1 ≤ w2) :
    1 ≤ lineHeight line w1 ∧ lineHeight line w2 ≤ lineHeight line w1 := by
  refine ⟨lineHeight_pos line w1, ?_⟩
  unfold lineHeight
  split
  · exact Nat.le_refl 1
  · have hm : max 1 w1 ≤ max 1 w2 := max_le_max (Nat.le_refl 1) h
    have hpos : 0 < max 1 w1 :=
      Nat.lt_of_lt_of_le Nat.zero_lt_one (le_max_left 1 w1)
    exact Nat.add_le_add_right (Nat.div_le_div_left hm hpos) 1

/-- C9 witness: a three-cell line at widths 2 and 3. -/
theorem c9_witness :
    1 ≤ lineHeight [97, 98, 99] 2 ∧
    lineHeight [97, 98, 99] 3 ≤ lineHeight [97, 98, 99] 2 :=
  c9_height_pos_antitone [97, 98, 99] 2 3 (by decide)

/-- C10: when every Loaded event in the trace carries an index below the
number of files, the wait terminates normally (no panic, `isSome`); a
Loaded event with index 1 against a single file makes the embedded loop
hit the out-of-bounds write, modelled as `none`. -/
theorem c10_loaded_index_bounds (files : List SFile)
    (cols rows deadline : Nat) (trace : List (Nat × PEvent))
    (hvalid : ∀ p ∈ trace, ∀ i, p.2 = PEvent.loaded i →
      i < files.length) :
    (wait_for_screenful files cols rows deadline trace).isSome = true ∧
    wait_for_screenful [SFile.mk [[97]]] 80 24 2000
      [(0, PEvent.loaded 1)] = none := by
  constructor
  · unfold wait_for_screenful
    exact waitLoop_isSome files deadline trace 0 cols rows
      (files.map (fun _ => false)) (by simp) hvalid
  · decide

/-- C10 witness: a trace with a single in-bounds Loaded event. -/
theorem c10_witness :
    (wait_for_screenful [SFile.mk [[104]]] 80 24 2000
      [(2, PEvent.loaded 0)]).isSome = true ∧
    wait_for_screenful [SFile.mk [[97]]] 80 24 2000
      [(0, PEvent.loaded 1)] = none :=
  c10_loaded_index_bounds [SFile.mk [[104]]] 80 24 2000
    [(2, PEvent.loaded 0)]
    (by
      intro p hp i hev
      rw [List.mem_singleton] at hp
      subst hp
      simp at hev
      simp
      omega)
